import Mathlib

/-!
Verification of the XLSX extraction utilities (`src/lib/xlsx-util.js`).

The JavaScript functions are embedded shallowly: JS strings become `String`
(or `List Char` where convenient), JS numbers become `Int` or `Nat` (all
arithmetic here stays in small integer ranges), JS `undefined` and absent
object fields become `Option`, and the one reachable runtime fault in
`getSheetSize` is modelled by an outer `Option` being `none`.
-/

namespace XlsxUtil

/-- The alphabet lookup table of `numOfColumn`:
`[ '', 'A', 'B', ..., 'Z' ]`. -/
def letters : List String :=
  ["", "A", "B", "C", "D", "E", "F", "G", "H", "I", "J", "K", "L", "M",
   "N", "O", "P", "Q", "R", "S", "T", "U", "V", "W", "X", "Y", "Z"]

/-- JS `Array.prototype.indexOf`, with the running index made explicit:
the position of the first occurrence of `x`, or `-1` when `x` does not
occur. -/
def jsIndexOfAux (x : String) : List String → Int → Int
  | [], _ => -1
  | a :: as, i => if a = x then i else jsIndexOfAux x as (i + 1)

/-- JS `Array.prototype.indexOf`: index of the first occurrence, `-1` when
absent. -/
def jsIndexOf (l : List String) (x : String) : Int :=
  jsIndexOfAux x l 0

/-- JS `String.prototype.trim`: strip whitespace from both ends. -/
def jsTrim (cs : List Char) : List Char :=
  ((cs.dropWhile Char.isWhitespace).reverse.dropWhile Char.isWhitespace).reverse

/-- `numOfColumn(text)`: `text.trim().split('')`, then accumulate
`num = num * 26 + letters.indexOf(char)` left to right starting from 0. -/
def numOfColumn (text : String) : Int :=
  (jsTrim text.data).foldl
    (fun num c => num * 26 + jsIndexOf letters (String.mk [c])) 0

/-- A `{row, col}` position as returned by `getPosition`. -/
structure Position where
  row : Int
  col : Int
deriving DecidableEq

/-- `text.split(/([0-9]+)/)`: the chunks between maximal digit runs,
interleaved with the captured digit runs themselves, so the chunks alternate
non-digit, digit, non-digit, ... and the first and last chunks are non-digit
(possibly empty). `cur` holds the current chunk in reverse and `inDigits`
says whether that chunk is a captured digit run; a chunk is flushed when the
character class changes, and a trailing digit run is followed by the empty
chunk after the final separator. -/
def splitReGo : List Char → List Char → Bool → List String
  | [], cur, inDigits =>
    if inDigits then [String.mk cur.reverse, ""] else [String.mk cur.reverse]
  | c :: cs, cur, inDigits =>
    if c.isDigit = inDigits then splitReGo cs (c :: cur) inDigits
    else String.mk cur.reverse :: splitReGo cs [c] c.isDigit

/-- `text.split(/([0-9]+)/)`, e.g. `"A1"` becomes `["A", "1", ""]`. -/
def splitRe (cs : List Char) : List String :=
  splitReGo cs [] false

/-- `parseInt(s, 10)` restricted to the strings the split produces at
index 1: non-empty all-digit strings, read as a plain decimal number. -/
def parseInt10 (s : String) : Nat :=
  s.data.foldl (fun n c => n * 10 + (c.toNat - 48)) 0

/-- `getPosition(text)`: split on digit runs; fewer than two chunks gives the
`{row:0, col:0}` sentinel, otherwise `units[1]` is parsed as the row and
`units[0]` fed to `numOfColumn` as the column. In the second branch both
indices exist, so `getD` only supplies an unused default. -/
def getPosition (text : String) : Position :=
  let units := splitRe text.data
  if units.length < 2 then ⟨0, 0⟩
  else ⟨(parseInt10 (units.getD 1 "") : Int), numOfColumn (units.getD 0 "")⟩

/-- One extracted cell record. -/
structure Cell where
  row : Int
  col : Int
  type : String
  value : String
deriving DecidableEq

/-- A worksheet cell node `{ $: { r, t? }, v? }`: its reference attribute,
optional type attribute, and optional value-node list. -/
structure CellNode where
  r : String
  t : Option String
  v : Option (List String)

/-- A worksheet row node `{ c? }`: an optional cell-node list. -/
structure RowNode where
  c : Option (List CellNode)

/-- The record `getCells` pushes for one cell node. -/
def cellRecord (cell : CellNode) : Cell :=
  { row := (getPosition cell.r).row
    col := (getPosition cell.r).col
    -- `cell.$.t ? cell.$.t : ''` — the empty string is falsy in JS
    type := match cell.t with
      | some s => if s = "" then "" else s
      | none => ""
    -- `cell.v && 0 < cell.v.length ? cell.v[0] : ''`
    value := match cell.v with
      | some (x :: _) => x
      | _ => "" }

/-- `getCells(rows)`: keep the rows whose `c` is a non-empty list, then push
one record per cell node, in traversal order. -/
def getCells (rows : List RowNode) : List Cell :=
  (rows.filter fun row =>
    match row.c with
    | some cs => decide (0 < cs.length)
    | none => false).foldl
    (fun cells row => cells ++ (row.c.getD []).map cellRecord) []

/-- One axis of a sheet size; `none` models a JS `undefined` entry. -/
structure Bound where
  min : Option Int
  max : Option Int
deriving DecidableEq

/-- `{row: {min,max}, col: {min,max}}` as returned by `getSheetSize`. -/
structure SheetSize where
  row : Bound
  col : Bound
deriving DecidableEq

/-- A `dimension` list entry `{ $: { ref } }`. -/
structure DimNode where
  ref : String

/-- A `worksheet` node with its optional `dimension` list. -/
structure Worksheet where
  dimension : Option (List DimNode)

/-- A sheet argument, whose `worksheet` field may be absent. -/
structure Sheet where
  worksheet : Option Worksheet

/-- `ref.split(':')` with `pre` holding the current chunk in reverse. -/
def splitOnColonAux : List Char → List Char → List (List Char)
  | pre, [] => [pre.reverse]
  | pre, c :: cs =>
    if c = ':' then pre.reverse :: splitOnColonAux [] cs
    else splitOnColonAux (c :: pre) cs

/-- `ref.split(':')`, e.g. `"A1:C3"` becomes `["A1", "C3"]`. -/
def splitOnColon (cs : List Char) : List (List Char) :=
  splitOnColonAux [] cs

/-- The fallback scan of `getSheetSize`: sort the row values and the column
values ascending (`Array.prototype.sort` with the `a - b` comparator,
modelled by `List.insertionSort`) and take the first and last entries;
`rows[0]` and `rows[rows.length - 1]` are `undefined` (`none`) when `cells`
is empty. -/
def scanCells (cells : List Cell) : SheetSize :=
  let rows := List.insertionSort (· ≤ ·) (cells.map Cell.row)
  let cols := List.insertionSort (· ≤ ·) (cells.map Cell.col)
  { row := { min := rows.head?, max := rows.getLast? }
    col := { min := cols.head?, max := cols.getLast? } }

/-- `getSheetSize(sheet, cells)`. The JS guard `0 <= dimension.length` is
always true, so an empty `dimension` array reaches `dimension[0].$` and
throws; that one fault is modelled by `none`. Every other input produces a
value: the parsed dimension endpoints when the `ref` splits into exactly two
chunks on `':'`, the fallback scan otherwise. -/
def getSheetSize (sheet : Option Sheet) (cells : List Cell) : Option SheetSize :=
  match sheet with
  | some ⟨some ⟨some []⟩⟩ => none
  | some ⟨some ⟨some (dim0 :: _)⟩⟩ =>
    let range := splitOnColon dim0.ref.data
    if range.length = 2 then
      let mn := getPosition (String.mk (range.getD 0 []))
      let mx := getPosition (String.mk (range.getD 1 []))
      some { row := { min := some mn.row, max := some mx.row }
             col := { min := some mn.col, max := some mx.col } }
    else
      some (scanCells cells)
  | _ => some (scanCells cells)

/-- The `_` payload of a structured text node: either a JS string or a value
of some other JS type. -/
inductive TPayload where
  | str (s : String)
  | nonstring

/-- One element of a `t` ("text") node list as produced by the XML layer: a
raw string, a structured node whose optional `_` field holds the
`xml:space="preserve"` text, or a value of any other JS `typeof`. -/
inductive TNode where
  | str (s : String)
  | node (payload : Option TPayload)
  | other

/-- The body of `parseT`'s forEach: how one `t` node extends the accumulated
value. The JS guard `obj._ && typeof obj._ === 'string'` makes an
empty-string payload (falsy) skip the append, which appends nothing either
way. -/
def parseTStep (value : String) (obj : TNode) : String :=
  match obj with
  | .str s => value ++ s
  | .node (some (.str s)) => if s = "" then value else value ++ s
  | .node _ => value
  | .other => value

/-- `parseT(t)`: concatenate the raw strings and the string `_` payloads. -/
def parseT (t : List TNode) : String :=
  t.foldl parseTStep ""

/-- One element of an `r` ("run") list: a node with an optional `t` list. -/
structure RNode where
  t : Option (List TNode)

/-- The body of `parseR`'s forEach: append `parseT(obj.t)` when the run's
`t` is present (a present list is truthy in JS even when empty). -/
def parseRStep (value : String) (obj : RNode) : String :=
  match obj.t with
  | some tl => value ++ parseT tl
  | none => value

/-- `parseR(r)`: concatenate the flattened text of each run carrying one. -/
def parseR (r : List RNode) : String :=
  r.foldl parseRStep ""

/-- `createEmptyCells(rows, cols)`: push `rows` fresh rows of `cols` empty
strings each. -/
def createEmptyCells (rows cols : Nat) : List (List String) :=
  (List.range rows).map fun _ => (List.range cols).map fun _ => ""

/-- The digit value `letters.indexOf(String.mk [c])` works out to:
`c.toNat - 64` (so A=1, ..., Z=26) for an upper-case letter, `-1` for every
other character. -/
def letterDigit (c : Char) : Int :=
  if 65 ≤ c.toNat ∧ c.toNat ≤ 90 then (c.toNat : Int) - 64 else -1

/-- The character is one of A–Z. -/
def isUpperAZ (c : Char) : Prop :=
  65 ≤ c.toNat ∧ c.toNat ≤ 90

instance (c : Char) : Decidable (isUpperAZ c) := by
  unfold isUpperAZ; infer_instance

/-- The base-26 accumulation over a list of digit values. -/
def base26 (l : List Int) : Int :=
  l.foldl (fun num d => num * 26 + d) 0

/-- The smallest base-26 value of a digit list of length `n` whose digits
all lie in `[1, 26]`: the all-ones numeral. -/
def minV : Nat → Int
  | 0 => 0
  | n + 1 => 26 ^ n + minV n

/-- The largest base-26 value of a digit list of length `n` whose digits
all lie in `[1, 26]`: the all-26 numeral. -/
def maxV : Nat → Int
  | 0 => 0
  | n + 1 => 26 * 26 ^ n + maxV n

/-- The natural base-26 ordering on column-letter strings: shorter strings
first, strings of equal length lexicographically. -/
def colLt (s t : List Char) : Prop :=
  s.length < t.length ∨ (s.length = t.length ∧ List.Lex (· < ·) s t)

instance (s t : List Char) : Decidable (colLt s t) := by
  unfold colLt
  have : DecidableRel (List.Lex (· < ·) : List Char → List Char → Prop) :=
    List.Lex.decidableRel _
  infer_instance

/-- The sheet argument carries no dimension declaration (`sheet`,
`sheet.worksheet` or `sheet.worksheet.dimension` is absent). -/
def hasNoDimension : Option Sheet → Bool
  | some ⟨some ⟨some _⟩⟩ => false
  | _ => true

end XlsxUtil

namespace XlsxUtil

theorem char_eq_of_toNat_eq {c d : Char} (h : c.toNat = d.toNat) : c = d := by
  have h2 := congrArg Char.ofNat h
  rwa [Char.ofNat_toNat, Char.ofNat_toNat] at h2

theorem jsIndexOfAux_of_not_mem (x : String) (l : List String) (i : Int)
    (h : ∀ a ∈ l, a ≠ x) : jsIndexOfAux x l i = -1 := by
  induction l generalizing i with
  | nil => rfl
  | cons a as ih =>
    simp only [jsIndexOfAux]
    rw [if_neg (h a (List.mem_cons_self a as))]
    exact ih _ (fun b hb => h b (List.mem_cons_of_mem a hb))

theorem letters_shape : ∀ a ∈ letters, a.data.length = 0 ∨
    (a.data.length = 1 ∧ 65 ≤ (a.data.headD 'A').toNat ∧ (a.data.headD 'A').toNat ≤ 90) := by
  decide

/-- What `letters.indexOf` returns on a one-character string. -/
theorem jsIndexOf_letters (c : Char) :
    jsIndexOf letters (String.mk [c]) = letterDigit c := by
  by_cases h : 65 ≤ c.toNat ∧ c.toNat ≤ 90
  · obtain ⟨h1, h2⟩ := h
    obtain ⟨n, hn⟩ : ∃ n, c.toNat = n := ⟨c.toNat, rfl⟩
    rw [hn] at h1 h2
    interval_cases n <;>
    · have hc := congrArg Char.ofNat hn
      rw [Char.ofNat_toNat] at hc
      subst hc
      decide
  · rw [not_and_or, not_le, not_le] at h
    have hmem : ∀ a ∈ letters, a ≠ String.mk [c] := by
      intro a ha heq
      have hd : a.data = [c] := by rw [heq]
      rcases letters_shape a ha with h0 | ⟨h1len, hlo, hhi⟩
      · rw [hd] at h0; simp at h0
      · rw [hd] at hlo hhi
        simp only [List.headD_cons] at hlo hhi
        rcases h with h | h <;> omega
    rw [letterDigit, if_neg (by rcases h with h | h <;> omega)]
    exact jsIndexOfAux_of_not_mem _ _ _ hmem

/-- `numOfColumn` is the base-26 accumulation of `letterDigit` values over
the trimmed input. -/
theorem numOfColumn_eq (text : String) :
    numOfColumn text =
      (jsTrim text.data).foldl (fun num c => num * 26 + letterDigit c) 0 := by
  unfold numOfColumn
  apply List.foldl_ext
  intro num c _
  rw [jsIndexOf_letters]

theorem dropWhile_eq_self_of {p : Char → Bool} {cs : List Char}
    (h : ∀ c ∈ cs, p c = false) : cs.dropWhile p = cs := by
  cases cs with
  | nil => rfl
  | cons c cs =>
    rw [List.dropWhile_cons, h c (List.mem_cons_self c cs)]
    simp

/-- Trimming is the identity on whitespace-free strings. -/
theorem jsTrim_eq_self {cs : List Char} (h : ∀ c ∈ cs, c.isWhitespace = false) :
    jsTrim cs = cs := by
  unfold jsTrim
  rw [dropWhile_eq_self_of h,
      dropWhile_eq_self_of (fun c hc => h c (List.mem_reverse.mp hc)),
      List.reverse_reverse]

theorem upper_not_whitespace {c : Char} (h : isUpperAZ c) :
    c.isWhitespace = false := by
  obtain ⟨h1, h2⟩ := h
  by_contra hws
  rw [Bool.not_eq_false] at hws
  simp only [Char.isWhitespace, Bool.or_eq_true, decide_eq_true_eq] at hws
  rcases hws with ((h' | h') | h') | h' <;> (subst h'; exact absurd h1 (by decide))

theorem char_lt_iff_toNat_lt {c d : Char} : c < d ↔ c.toNat < d.toNat := by
  rw [Char.lt_iff_val_lt_val]
  exact ⟨fun h => h, fun h => h⟩

theorem letterDigit_bounds {c : Char} (h : isUpperAZ c) :
    1 ≤ letterDigit c ∧ letterDigit c ≤ 26 := by
  obtain ⟨h1, h2⟩ := h
  rw [letterDigit, if_pos ⟨h1, h2⟩]
  omega

theorem letterDigit_lt {c d : Char} (hc : isUpperAZ c) (hd : isUpperAZ d)
    (h : c < d) : letterDigit c < letterDigit d := by
  obtain ⟨hc1, hc2⟩ := hc
  obtain ⟨hd1, hd2⟩ := hd
  rw [letterDigit, if_pos ⟨hc1, hc2⟩, letterDigit, if_pos ⟨hd1, hd2⟩]
  have := char_lt_iff_toNat_lt.mp h
  omega

theorem base26_shift (l : List Int) (a : Int) :
    l.foldl (fun num d => num * 26 + d) a =
      a * 26 ^ l.length + l.foldl (fun num d => num * 26 + d) 0 := by
  induction l generalizing a with
  | nil => simp
  | cons d l ih =>
    rw [List.foldl_cons, List.foldl_cons, ih (a * 26 + d), ih (0 * 26 + d),
        List.length_cons]
    ring

theorem base26_cons (d : Int) (l : List Int) :
    base26 (d :: l) = d * 26 ^ l.length + base26 l := by
  rw [base26, List.foldl_cons, base26_shift, base26]
  ring

theorem minV_nonneg (n : Nat) : 0 ≤ minV n := by
  induction n with
  | zero => simp [minV]
  | succ n ih =>
    rw [minV]
    have : (0:Int) ≤ 26 ^ n := pow_nonneg (by norm_num) n
    linarith

theorem base26_bounds {l : List Int} (h : ∀ d ∈ l, 1 ≤ d ∧ d ≤ 26) :
    minV l.length ≤ base26 l ∧ base26 l ≤ maxV l.length := by
  induction l with
  | nil => simp [base26, minV, maxV]
  | cons d l ih =>
    have hd := h d (List.mem_cons_self d l)
    have hih := ih (fun x hx => h x (List.mem_cons_of_mem d hx))
    have hp : (0:Int) ≤ 26 ^ l.length := pow_nonneg (by norm_num) l.length
    rw [base26_cons, List.length_cons, minV, maxV]
    constructor
    · have h1 : (26:Int) ^ l.length ≤ d * 26 ^ l.length := by nlinarith
      linarith [hih.1]
    · have h2 : d * 26 ^ l.length ≤ 26 * 26 ^ l.length := by nlinarith
      linarith [hih.2]

theorem maxV_lt (n : Nat) : maxV n < 26 ^ n + minV n := by
  induction n with
  | zero => simp [maxV, minV]
  | succ n ih =>
    rw [maxV, minV, pow_succ]
    linarith

theorem maxV_mono {m n : Nat} (h : m ≤ n) : maxV m ≤ maxV n := by
  induction n with
  | zero =>
    have : m = 0 := by omega
    subst this
    exact le_refl _
  | succ n ih =>
    by_cases hmn : m ≤ n
    · have : (0:Int) ≤ 26 ^ n := pow_nonneg (by norm_num) n
      have h2 : maxV n ≤ maxV (n + 1) := by rw [maxV]; linarith
      exact le_trans (ih hmn) h2
    · have : m = n + 1 := by omega
      subst this
      exact le_refl _

theorem base26_lt_of_length_lt {s t : List Int}
    (hs : ∀ d ∈ s, 1 ≤ d ∧ d ≤ 26) (ht : ∀ d ∈ t, 1 ≤ d ∧ d ≤ 26)
    (h : s.length < t.length) : base26 s < base26 t := by
  obtain ⟨n, hn⟩ : ∃ n, t.length = n + 1 := ⟨t.length - 1, by omega⟩
  have h1 := (base26_bounds hs).2
  have h2 := (base26_bounds ht).1
  rw [hn, minV] at h2
  have h3 : maxV s.length ≤ maxV n := maxV_mono (by omega)
  have h4 := maxV_lt n
  linarith

theorem base26_lt_of_lex {s t : List Int} (hlex : List.Lex (· < ·) s t) :
    s.length = t.length → (∀ d ∈ s, 1 ≤ d ∧ d ≤ 26) →
    (∀ d ∈ t, 1 ≤ d ∧ d ≤ 26) → base26 s < base26 t := by
  induction hlex with
  | nil =>
    intro hlen _ _
    simp at hlen
  | @cons a l₁ l₂ hl ih =>
    intro hlen hs ht
    have hlen' : l₁.length = l₂.length := by simpa using hlen
    rw [base26_cons, base26_cons, hlen']
    have := ih hlen' (fun x hx => hs x (List.mem_cons_of_mem a hx))
      (fun x hx => ht x (List.mem_cons_of_mem a hx))
    linarith
  | @rel a₁ l₁ a₂ l₂ hab =>
    intro hlen hs ht
    have hlen' : l₁.length = l₂.length := by simpa using hlen
    rw [base26_cons, base26_cons, hlen']
    have h1 := (base26_bounds (fun x hx => hs x (List.mem_cons_of_mem a₁ hx))).2
    have h2 := (base26_bounds (fun x hx => ht x (List.mem_cons_of_mem a₂ hx))).1
    rw [hlen'] at h1
    have h3 := maxV_lt l₂.length
    have h4 : a₁ + 1 ≤ a₂ := hab
    have hp : (0:Int) ≤ 26 ^ l₂.length := pow_nonneg (by norm_num) l₂.length
    have h5 : a₁ * 26 ^ l₂.length + 26 ^ l₂.length ≤ a₂ * 26 ^ l₂.length := by
      nlinarith
    linarith

/-- In the Lex order on upper-case letter lists, mapping to digit values
preserves strict lexicographic comparison. -/
theorem lex_map_letterDigit {s t : List Char} (hlex : List.Lex (· < ·) s t) :
    (∀ c ∈ s, isUpperAZ c) → (∀ c ∈ t, isUpperAZ c) →
    List.Lex (· < ·) (s.map letterDigit) (t.map letterDigit) := by
  induction hlex with
  | nil =>
    intro _ _
    simp only [List.map_nil, List.map_cons]
    exact List.Lex.nil
  | @cons a l₁ l₂ hl ih =>
    intro hs ht
    simp only [List.map_cons]
    exact List.Lex.cons (ih (fun x hx => hs x (List.mem_cons_of_mem a hx))
      (fun x hx => ht x (List.mem_cons_of_mem a hx)))
  | @rel a₁ l₁ a₂ l₂ hab =>
    intro hs ht
    simp only [List.map_cons]
    exact List.Lex.rel (letterDigit_lt (hs a₁ (List.mem_cons_self a₁ l₁))
      (ht a₂ (List.mem_cons_self a₂ l₂)) hab)

/-- On all-upper-case input, `numOfColumn` is the base-26 accumulation of
the digit values A=1, ..., Z=26. -/
theorem numOfColumn_upper_eq {s : String} (h : ∀ c ∈ s.data, isUpperAZ c) :
    numOfColumn s = base26 (s.data.map letterDigit) := by
  rw [numOfColumn_eq, jsTrim_eq_self (fun c hc => upper_not_whitespace (h c hc)),
      base26, List.foldl_map]

/-- Claim C1, counterexample: the claim says a character outside A–Z
contributes a digit value of 0, so `numOfColumn "a"` would be
`0 * 26 + 0 = 0`; the code's `letters.indexOf` returns `-1` for an absent
character, and `numOfColumn "a"` is in fact `-1`. -/
theorem numOfColumn_lowercase_ne_zero :
    numOfColumn "a" = -1 ∧ numOfColumn "a" ≠ 0 := by
  decide

/-- Claim C1 (amended): each character outside A–Z contributes a digit value
of `-1` at its position (the accumulation `num = num*26 + digitValue` still
proceeds, degrading silently); for any string, after trimming surrounding
whitespace, the result is the base-26 accumulation with `-1` substituted at
each non-A–Z position, e.g. `numOfColumn "aB" = (-1) * 26 + 2`. -/
theorem numOfColumn_digit_value_neg_one :
    (∀ s : String, numOfColumn s = (jsTrim s.data).foldl
      (fun num c =>
        num * 26 + (if 65 ≤ c.toNat ∧ c.toNat ≤ 90 then (c.toNat : Int) - 64 else -1)) 0) ∧
    numOfColumn "aB" = (-1) * 26 + 2 := by
  constructor
  · intro s
    rw [numOfColumn_eq]
    rfl
  · decide

/-- Claim C4: on strings of A–Z letters, `numOfColumn` is the base-26
accumulation with digit values A=1, ..., Z=26; the empty string yields 0;
the listed examples hold; and `numOfColumn` is strictly increasing in the
natural base-26 ordering (shorter first, then lexicographic). -/
theorem numOfColumn_base26_strict_mono :
    (∀ s : String, (∀ c ∈ s.data, isUpperAZ c) →
      numOfColumn s = s.data.foldl (fun num c => num * 26 + ((c.toNat : Int) - 64)) 0) ∧
    numOfColumn "" = 0 ∧
    numOfColumn "A" = 1 ∧ numOfColumn "Z" = 26 ∧ numOfColumn "AA" = 27 ∧
    numOfColumn "AZ" = 52 ∧ numOfColumn "BA" = 53 ∧
    (∀ s t : String, (∀ c ∈ s.data, isUpperAZ c) → (∀ c ∈ t.data, isUpperAZ c) →
      colLt s.data t.data → numOfColumn s < numOfColumn t) := by
  refine ⟨?_, by decide, by decide, by decide, by decide, by decide, by decide, ?_⟩
  · intro s h
    rw [numOfColumn_upper_eq h, base26, List.foldl_map]
    apply List.foldl_ext
    intro num c hc
    obtain ⟨h1, h2⟩ := h c hc
    rw [letterDigit, if_pos ⟨h1, h2⟩]
  · intro s t hs ht hlt
    rw [numOfColumn_upper_eq hs, numOfColumn_upper_eq ht]
    have hbs : ∀ d ∈ s.data.map letterDigit, 1 ≤ d ∧ d ≤ 26 := by
      intro d hd
      obtain ⟨c, hc, rfl⟩ := List.mem_map.mp hd
      exact letterDigit_bounds (hs c hc)
    have hbt : ∀ d ∈ t.data.map letterDigit, 1 ≤ d ∧ d ≤ 26 := by
      intro d hd
      obtain ⟨c, hc, rfl⟩ := List.mem_map.mp hd
      exact letterDigit_bounds (ht c hc)
    rcases hlt with hlen | ⟨hlen, hlex⟩
    · exact base26_lt_of_length_lt hbs hbt (by simpa using hlen)
    · exact base26_lt_of_lex (lex_map_letterDigit hlex hs ht)
        (by simpa using hlen) hbs hbt

theorem char_le_iff_toNat_le {c d : Char} : c ≤ d ↔ c.toNat ≤ d.toNat := by
  rw [Char.le_def]
  exact ⟨fun h => h, fun h => h⟩

theorem upper_not_digit {c : Char} (h : isUpperAZ c) : c.isDigit = false := by
  obtain ⟨h1, h2⟩ := h
  by_contra hne
  rw [Bool.not_eq_false] at hne
  simp only [Char.isDigit, Bool.and_eq_true, decide_eq_true_eq] at hne
  have h3 : c.toNat ≤ (57 : UInt32).toNat := hne.2
  have h4 : (57 : UInt32).toNat = 57 := by decide
  rw [h4] at h3
  omega

theorem takeWhile_eq_self_of {p : Char → Bool} {cs : List Char}
    (h : ∀ c ∈ cs, p c = true) : cs.takeWhile p = cs := by
  induction cs with
  | nil => rfl
  | cons c cs ih =>
    rw [List.takeWhile_cons, h c (List.mem_cons_self c cs),
        ih (fun x hx => h x (List.mem_cons_of_mem c hx))]
    simp

/-- A chunk with no digit in it runs to the end of the input: the split is a
single chunk. -/
theorem splitReGo_no_digit (cs cur : List Char) (h : ∀ c ∈ cs, c.isDigit = false) :
    splitReGo cs cur false = [String.mk (cur.reverse ++ cs)] := by
  induction cs generalizing cur with
  | nil => simp [splitReGo]
  | cons c cs ih =>
    rw [splitReGo, if_pos (h c (List.mem_cons_self c cs)),
        ih _ (fun x hx => h x (List.mem_cons_of_mem c hx))]
    simp

/-- Consuming the digit-free prefix `L` and meeting the digit `d` flushes
`L` and switches to the digit run. -/
theorem splitReGo_enter_digit (L : List Char) (d : Char) (rest cur : List Char)
    (hL : ∀ c ∈ L, c.isDigit = false) (hd : d.isDigit = true) :
    splitReGo (L ++ d :: rest) cur false =
      String.mk (cur.reverse ++ L) :: splitReGo rest [d] true := by
  induction L generalizing cur with
  | nil =>
    simp only [List.nil_append]
    rw [splitReGo, if_neg (by rw [hd]; simp), hd]
    simp
  | cons c L ih =>
    rw [List.cons_append, splitReGo,
        if_pos (hL c (List.mem_cons_self c L)),
        ih _ (fun x hx => hL x (List.mem_cons_of_mem c hx))]
    simp

/-- In digit mode the split first emits the pending run extended by the
maximal digit prefix of the remaining input. -/
theorem splitReGo_digit_run (rest : List Char) (run : List Char) :
    ∃ tail, splitReGo rest run true =
      String.mk (run.reverse ++ rest.takeWhile Char.isDigit) :: tail := by
  induction rest generalizing run with
  | nil => exact ⟨[""], by simp [splitReGo]⟩
  | cons c cs ih =>
    by_cases hc : c.isDigit = true
    · obtain ⟨tail, htail⟩ := ih (c :: run)
      refine ⟨tail, ?_⟩
      rw [splitReGo, if_pos hc, htail, List.takeWhile_cons, hc]
      simp
    · rw [Bool.not_eq_true] at hc
      refine ⟨splitReGo cs [c] c.isDigit, ?_⟩
      rw [splitReGo, if_neg (by rw [hc]; simp),
          List.takeWhile_cons, hc]
      simp

/-- A digit-free input yields a single-chunk split. -/
theorem splitRe_no_digit {cs : List Char} (h : ∀ c ∈ cs, c.isDigit = false) :
    splitRe cs = [String.mk cs] := by
  rw [splitRe, splitReGo_no_digit _ _ h]
  simp

/-- An input with a digit-free prefix followed by a digit splits into that
prefix, the first maximal digit run, and some tail. -/
theorem splitRe_with_digit (L : List Char) (d : Char) (rest : List Char)
    (hL : ∀ c ∈ L, c.isDigit = false) (hd : d.isDigit = true) :
    ∃ tail, splitRe (L ++ d :: rest) =
      String.mk L :: String.mk (d :: rest.takeWhile Char.isDigit) :: tail := by
  rw [splitRe, splitReGo_enter_digit L d rest [] hL hd]
  obtain ⟨tail, htail⟩ := splitReGo_digit_run rest [d]
  refine ⟨tail, ?_⟩
  rw [htail]
  simp

/-- `getPosition` on a digit-free input returns the sentinel. -/
theorem getPosition_no_digit {text : String} (h : ∀ c ∈ text.data, c.isDigit = false) :
    getPosition text = ⟨0, 0⟩ := by
  simp [getPosition, splitRe_no_digit h]

/-- `getPosition` on an input holding a digit: the row is the first maximal
digit run, the column comes from the digit-free prefix. -/
theorem getPosition_split (L : List Char) (d : Char) (rest : List Char)
    (hL : ∀ c ∈ L, c.isDigit = false) (hd : d.isDigit = true) :
    getPosition (String.mk (L ++ d :: rest)) =
      ⟨(parseInt10 (String.mk (d :: rest.takeWhile Char.isDigit)) : Int),
       numOfColumn (String.mk L)⟩ := by
  obtain ⟨tail, htail⟩ := splitRe_with_digit L d rest hL hd
  simp only [getPosition]
  rw [htail, if_neg (by simp only [List.length_cons]; omega)]
  rfl

/-- Claim C2, counterexample: a digits-only reference does not return the
sentinel. `"123".split(/([0-9]+)/)` is `["", "123", ""]`, of length 3, so
`getPosition "123"` is `{row: 123, col: 0}`, not `{row: 0, col: 0}`. -/
theorem getPosition_digits_only_ne_sentinel :
    getPosition "123" = ⟨123, 0⟩ ∧ getPosition "123" ≠ ⟨0, 0⟩ := by
  decide

/-- Claim C2 (amended): an input containing no digit at all (the empty
string and letters-only strings among them) returns the sentinel
`{row:0, col:0}`; an input that splits into letters followed by digits
returns `{row: base-10 value of the digits, col: numOfColumn(letters)}`;
but a digits-only input returns `{row: base-10 value of the digits, col: 0}`
rather than the sentinel. -/
theorem getPosition_split_characterization :
    (∀ text : String, (∀ c ∈ text.data, c.isDigit = false) →
      getPosition text = ⟨0, 0⟩) ∧
    (∀ L D : List Char, (∀ c ∈ L, isUpperAZ c) → D ≠ [] →
      (∀ c ∈ D, c.isDigit = true) →
      getPosition (String.mk (L ++ D)) =
        ⟨(parseInt10 (String.mk D) : Int), numOfColumn (String.mk L)⟩) ∧
    (∀ D : List Char, D ≠ [] → (∀ c ∈ D, c.isDigit = true) →
      getPosition (String.mk D) = ⟨(parseInt10 (String.mk D) : Int), 0⟩) := by
  have hmain : ∀ L D : List Char, (∀ c ∈ L, c.isDigit = false) → D ≠ [] →
      (∀ c ∈ D, c.isDigit = true) →
      getPosition (String.mk (L ++ D)) =
        ⟨(parseInt10 (String.mk D) : Int), numOfColumn (String.mk L)⟩ := by
    intro L D hL hD hdig
    obtain ⟨d, ds, rfl⟩ : ∃ d ds, D = d :: ds := by
      cases D with
      | nil => exact absurd rfl hD
      | cons d ds => exact ⟨d, ds, rfl⟩
    rw [getPosition_split L d ds hL (hdig d (List.mem_cons_self d ds)),
        takeWhile_eq_self_of (fun c hc => hdig c (List.mem_cons_of_mem d hc))]
  refine ⟨fun text h => getPosition_no_digit h, ?_, ?_⟩
  · intro L D hL hD hdig
    exact hmain L D (fun c hc => upper_not_digit (hL c hc)) hD hdig
  · intro D hD hdig
    have h1 := hmain [] D (by simp) hD hdig
    have h0 : numOfColumn (String.mk []) = 0 := by decide
    rw [List.nil_append] at h1
    rw [h1, h0]

/-- Claim C2, witness: the three parts applied at `""`, `"AB12"` and
`"123"`. -/
theorem getPosition_split_characterization_witness :
    getPosition "" = ⟨0, 0⟩ ∧
    getPosition (String.mk (['A', 'B'] ++ ['1', '2'])) =
      ⟨(parseInt10 (String.mk ['1', '2']) : Int), numOfColumn (String.mk ['A', 'B'])⟩ ∧
    getPosition (String.mk ['1', '2', '3']) =
      ⟨(parseInt10 (String.mk ['1', '2', '3']) : Int), 0⟩ :=
  ⟨getPosition_split_characterization.1 "" (by decide),
   getPosition_split_characterization.2.1 ['A', 'B'] ['1', '2']
     (by decide) (by decide) (by decide),
   getPosition_split_characterization.2.2 ['1', '2', '3'] (by decide) (by decide)⟩

/-- Claim C8: for a well-formed reference — one or more A–Z letters
immediately followed by digits — the `col` field of `getPosition` on the
whole reference equals `numOfColumn` applied directly to the letter part. -/
theorem getPosition_col_eq_numOfColumn (L D : List Char)
    (_hL : L ≠ []) (hU : ∀ c ∈ L, isUpperAZ c) (hD : D ≠ [])
    (hdig : ∀ c ∈ D, c.isDigit = true) :
    (getPosition (String.mk (L ++ D))).col = numOfColumn (String.mk L) := by
  obtain ⟨d, ds, rfl⟩ : ∃ d ds, D = d :: ds := by
    cases D with
    | nil => exact absurd rfl hD
    | cons d ds => exact ⟨d, ds, rfl⟩
  rw [getPosition_split L d ds (fun c hc => upper_not_digit (hU c hc))
      (hdig d (List.mem_cons_self d ds))]

/-- Claim C8, witness: the reference `"A7"`. -/
theorem getPosition_col_eq_numOfColumn_witness :
    (getPosition (String.mk (['A'] ++ ['7']))).col = numOfColumn (String.mk ['A']) :=
  getPosition_col_eq_numOfColumn ['A'] ['7']
    (by decide) (by decide) (by decide) (by decide)

/-- The head of a sorted non-empty list bounds every element from below. -/
theorem sorted_cons_head_le {a : Int} {t : List Int}
    (hs : (a :: t).Sorted (· ≤ ·)) : ∀ x ∈ a :: t, a ≤ x := by
  intro x hx
  rcases List.mem_cons.mp hx with rfl | hx
  · exact le_refl x
  · exact List.rel_of_sorted_cons hs x hx

/-- The last element of a sorted list bounds every element from above. -/
theorem sorted_getLast?_ge {l : List Int} (hs : l.Sorted (· ≤ ·)) :
    ∀ M, l.getLast? = some M → ∀ x ∈ l, x ≤ M := by
  induction l with
  | nil =>
    intro M hM
    simp at hM
  | cons a t ih =>
    intro M hM x hx
    cases t with
    | nil =>
      simp at hM hx
      rw [hx, ← hM]
    | cons b t2 =>
      rw [List.getLast?_cons_cons] at hM
      have hMmem : M ∈ b :: t2 := List.mem_of_getLast?_eq_some hM
      rcases List.mem_cons.mp hx with rfl | hx2
      · exact List.rel_of_sorted_cons hs M hMmem
      · exact ih hs.of_cons M hM x hx2

/-- Sorting a non-empty list of integers ascending puts a least element
first and a greatest element last. -/
theorem insertionSort_head_getLast (l : List Int) (hl : l ≠ []) :
    ∃ m M, (List.insertionSort (· ≤ ·) l).head? = some m ∧
      (List.insertionSort (· ≤ ·) l).getLast? = some M ∧
      m ∈ l ∧ (∀ x ∈ l, m ≤ x) ∧ M ∈ l ∧ (∀ x ∈ l, x ≤ M) := by
  have hperm : List.Perm (List.insertionSort (· ≤ ·) l) l := List.perm_insertionSort _ _
  have hsorted : (List.insertionSort (· ≤ ·) l).Sorted (· ≤ ·) :=
    List.sorted_insertionSort _ _
  cases hs0 : List.insertionSort (· ≤ ·) l with
  | nil =>
    rw [hs0] at hperm
    exact absurd hperm.symm.eq_nil hl
  | cons a t =>
    rw [hs0] at hperm hsorted
    obtain ⟨M, hM⟩ : ∃ M, (a :: t).getLast? = some M := by
      cases hq : (a :: t).getLast? with
      | some M => exact ⟨M, rfl⟩
      | none => exact absurd (List.getLast?_eq_none_iff.mp hq) (by simp)
    refine ⟨a, M, rfl, hM, hperm.subset (List.mem_cons_self a t),
      fun x hx => sorted_cons_head_le hsorted x (hperm.mem_iff.mpr hx),
      hperm.subset (List.mem_of_getLast?_eq_some hM),
      fun x hx => sorted_getLast?_ge hsorted M hM x (hperm.mem_iff.mpr hx)⟩

/-- The fallback scan on a non-empty cell list produces the componentwise
minima and maxima of the row and column values. -/
theorem scanCells_spec {cells : List Cell} (h : cells ≠ []) :
    ∃ rmin rmax cmin cmax,
      scanCells cells = ⟨⟨some rmin, some rmax⟩, ⟨some cmin, some cmax⟩⟩ ∧
      rmin ∈ cells.map Cell.row ∧ (∀ x ∈ cells.map Cell.row, rmin ≤ x) ∧
      rmax ∈ cells.map Cell.row ∧ (∀ x ∈ cells.map Cell.row, x ≤ rmax) ∧
      cmin ∈ cells.map Cell.col ∧ (∀ x ∈ cells.map Cell.col, cmin ≤ x) ∧
      cmax ∈ cells.map Cell.col ∧ (∀ x ∈ cells.map Cell.col, x ≤ cmax) := by
  obtain ⟨rmin, rmax, hr1, hr2, hr3, hr4, hr5, hr6⟩ :=
    insertionSort_head_getLast (cells.map Cell.row)
      (fun h0 => h (List.map_eq_nil_iff.mp h0))
  obtain ⟨cmin, cmax, hc1, hc2, hc3, hc4, hc5, hc6⟩ :=
    insertionSort_head_getLast (cells.map Cell.col)
      (fun h0 => h (List.map_eq_nil_iff.mp h0))
  refine ⟨rmin, rmax, cmin, cmax, ?_, hr3, hr4, hr5, hr6, hc3, hc4, hc5, hc6⟩
  simp only [scanCells]
  rw [hr1, hr2, hc1, hc2]

/-- Claim C5: with no dimension declaration and a non-empty cell list,
`getSheetSize` returns the bounding box of the scanned cells: each `min` is
the least and each `max` the greatest of the corresponding values, so
`min ≤ max` on both axes; cells at (1,1), (5,3), (2,2) give
`{row:{min:1,max:5}, col:{min:1,max:3}}`. -/
theorem getSheetSize_fallback_minmax :
    (∀ (sheet : Option Sheet) (cells : List Cell),
      hasNoDimension sheet = true → cells ≠ [] →
      ∃ rmin rmax cmin cmax,
        getSheetSize sheet cells =
          some ⟨⟨some rmin, some rmax⟩, ⟨some cmin, some cmax⟩⟩ ∧
        rmin ∈ cells.map Cell.row ∧ (∀ x ∈ cells.map Cell.row, rmin ≤ x) ∧
        rmax ∈ cells.map Cell.row ∧ (∀ x ∈ cells.map Cell.row, x ≤ rmax) ∧
        cmin ∈ cells.map Cell.col ∧ (∀ x ∈ cells.map Cell.col, cmin ≤ x) ∧
        cmax ∈ cells.map Cell.col ∧ (∀ x ∈ cells.map Cell.col, x ≤ cmax) ∧
        rmin ≤ rmax ∧ cmin ≤ cmax) ∧
    getSheetSize none [⟨1, 1, "", ""⟩, ⟨5, 3, "", ""⟩, ⟨2, 2, "", ""⟩] =
      some ⟨⟨some 1, some 5⟩, ⟨some 1, some 3⟩⟩ := by
  refine ⟨?_, by decide⟩
  intro sheet cells hnd hne
  have hform : getSheetSize sheet cells = some (scanCells cells) := by
    rcases sheet with _ | ⟨_ | ⟨_ | dims⟩⟩
    · rfl
    · rfl
    · rfl
    · simp [hasNoDimension] at hnd
  obtain ⟨rmin, rmax, cmin, cmax, hscan, h1, h2, h3, h4, h5, h6, h7, h8⟩ :=
    scanCells_spec hne
  exact ⟨rmin, rmax, cmin, cmax, by rw [hform, hscan],
    h1, h2, h3, h4, h5, h6, h7, h8, h2 rmax h3, h6 cmax h7⟩

/-- Claim C5, witness: applied at the cells (1,1), (5,3), (2,2) with no
sheet argument. -/
theorem getSheetSize_fallback_minmax_witness :
    hasNoDimension none = true ∧
    ([⟨1, 1, "", ""⟩, ⟨5, 3, "", ""⟩, ⟨2, 2, "", ""⟩] : List Cell) ≠ [] ∧
    (∃ rmin rmax cmin cmax,
      getSheetSize none [⟨1, 1, "", ""⟩, ⟨5, 3, "", ""⟩, ⟨2, 2, "", ""⟩] =
        some ⟨⟨some rmin, some rmax⟩, ⟨some cmin, some cmax⟩⟩ ∧
      rmin ∈ ([⟨1, 1, "", ""⟩, ⟨5, 3, "", ""⟩, ⟨2, 2, "", ""⟩] : List Cell).map Cell.row ∧
      (∀ x ∈ ([⟨1, 1, "", ""⟩, ⟨5, 3, "", ""⟩, ⟨2, 2, "", ""⟩] : List Cell).map Cell.row, rmin ≤ x) ∧
      rmax ∈ ([⟨1, 1, "", ""⟩, ⟨5, 3, "", ""⟩, ⟨2, 2, "", ""⟩] : List Cell).map Cell.row ∧
      (∀ x ∈ ([⟨1, 1, "", ""⟩, ⟨5, 3, "", ""⟩, ⟨2, 2, "", ""⟩] : List Cell).map Cell.row, x ≤ rmax) ∧
      cmin ∈ ([⟨1, 1, "", ""⟩, ⟨5, 3, "", ""⟩, ⟨2, 2, "", ""⟩] : List Cell).map Cell.col ∧
      (∀ x ∈ ([⟨1, 1, "", ""⟩, ⟨5, 3, "", ""⟩, ⟨2, 2, "", ""⟩] : List Cell).map Cell.col, cmin ≤ x) ∧
      cmax ∈ ([⟨1, 1, "", ""⟩, ⟨5, 3, "", ""⟩, ⟨2, 2, "", ""⟩] : List Cell).map Cell.col ∧
      (∀ x ∈ ([⟨1, 1, "", ""⟩, ⟨5, 3, "", ""⟩, ⟨2, 2, "", ""⟩] : List Cell).map Cell.col, x ≤ cmax) ∧
      rmin ≤ rmax ∧ cmin ≤ cmax) :=
  ⟨by decide, by decide,
   getSheetSize_fallback_minmax.1 none
     [⟨1, 1, "", ""⟩, ⟨5, 3, "", ""⟩, ⟨2, 2, "", ""⟩] (by decide) (by decide)⟩

/-- Claim C3: an explicit dimension declaration whose `ref` splits into
exactly two chunks on `':'` is authoritative: `getSheetSize` returns the
box given by `getPosition` of the two endpoints, for every `cells` argument
whatsoever; in particular `"B2:D4"` gives
`{row:{min:2,max:4}, col:{min:2,max:4}}` regardless of `cells`. -/
theorem getSheetSize_dimension_priority :
    (∀ (ref : String) (a b : List Char) (rest : List DimNode) (cells : List Cell),
      splitOnColon ref.data = [a, b] →
      getSheetSize (some ⟨some ⟨some (⟨ref⟩ :: rest)⟩⟩) cells =
        some ⟨⟨some (getPosition (String.mk a)).row, some (getPosition (String.mk b)).row⟩,
              ⟨some (getPosition (String.mk a)).col, some (getPosition (String.mk b)).col⟩⟩) ∧
    (∀ cells : List Cell,
      getSheetSize (some ⟨some ⟨some [⟨"B2:D4"⟩]⟩⟩) cells =
        some ⟨⟨some 2, some 4⟩, ⟨some 2, some 4⟩⟩) := by
  have hgen : ∀ (ref : String) (a b : List Char) (rest : List DimNode) (cells : List Cell),
      splitOnColon ref.data = [a, b] →
      getSheetSize (some ⟨some ⟨some (⟨ref⟩ :: rest)⟩⟩) cells =
        some ⟨⟨some (getPosition (String.mk a)).row, some (getPosition (String.mk b)).row⟩,
              ⟨some (getPosition (String.mk a)).col, some (getPosition (String.mk b)).col⟩⟩ := by
    intro ref a b rest cells h
    simp [getSheetSize, h, List.getD]
  refine ⟨hgen, fun cells => ?_⟩
  have h1 := hgen "B2:D4" "B2".data "D4".data [] cells (by decide)
  have ha : getPosition (String.mk "B2".data) = ⟨2, 2⟩ := by decide
  have hb : getPosition (String.mk "D4".data) = ⟨4, 4⟩ := by decide
  rw [h1, ha, hb]

/-- Claim C3, witness: the two parts applied at `"B2:D4"` with a cells list
that would give a different box, and at `"A1:C3"` with no cells. -/
theorem getSheetSize_dimension_priority_witness :
    getSheetSize (some ⟨some ⟨some [⟨"B2:D4"⟩]⟩⟩) [⟨9, 9, "", ""⟩] =
      some ⟨⟨some 2, some 4⟩, ⟨some 2, some 4⟩⟩ ∧
    getSheetSize (some ⟨some ⟨some [⟨"A1:C3"⟩]⟩⟩) [] =
      some ⟨⟨some (getPosition (String.mk "A1".data)).row,
             some (getPosition (String.mk "C3".data)).row⟩,
            ⟨some (getPosition (String.mk "A1".data)).col,
             some (getPosition (String.mk "C3".data)).col⟩⟩ :=
  ⟨getSheetSize_dimension_priority.2 [⟨9, 9, "", ""⟩],
   getSheetSize_dimension_priority.1 "A1:C3" "A1".data "C3".data [] [] (by decide)⟩

/-- Claim C10: a present dimension whose `ref` does not split into exactly
two chunks on `':'` is ignored without failing: `getSheetSize` falls through
to the fallback scan over `cells`, the same result as with no dimension at
all. -/
theorem getSheetSize_malformed_dimension_fallback :
    ∀ (ref : String) (rest : List DimNode) (cells : List Cell),
      (splitOnColon ref.data).length ≠ 2 →
      getSheetSize (some ⟨some ⟨some (⟨ref⟩ :: rest)⟩⟩) cells = some (scanCells cells) ∧
      getSheetSize (some ⟨some ⟨some (⟨ref⟩ :: rest)⟩⟩) cells = getSheetSize none cells := by
  intro ref rest cells h
  constructor
  · simp [getSheetSize, h]
  · simp [getSheetSize, h]

/-- Claim C10, witness: the single-endpoint dimension `"B2"`. -/
theorem getSheetSize_malformed_dimension_fallback_witness :
    (splitOnColon "B2".data).length ≠ 2 ∧
    (getSheetSize (some ⟨some ⟨some [⟨"B2"⟩]⟩⟩) [⟨1, 1, "", ""⟩] =
        some (scanCells [⟨1, 1, "", ""⟩]) ∧
      getSheetSize (some ⟨some ⟨some [⟨"B2"⟩]⟩⟩) [⟨1, 1, "", ""⟩] =
        getSheetSize none [⟨1, 1, "", ""⟩]) :=
  ⟨by decide,
   getSheetSize_malformed_dimension_fallback "B2" [] [⟨1, 1, "", ""⟩] (by decide)⟩

/-- Claim C4, witness: the strict-monotonicity and accumulation parts applied
at `"AB" < "BA"`. -/
theorem numOfColumn_base26_strict_mono_witness :
    (∀ c ∈ "AB".data, isUpperAZ c) ∧ (∀ c ∈ "BA".data, isUpperAZ c) ∧
    colLt "AB".data "BA".data ∧
    numOfColumn "AB" < numOfColumn "BA" ∧
    numOfColumn "AB" = "AB".data.foldl (fun num c => num * 26 + ((c.toNat : Int) - 64)) 0 :=
  ⟨by decide, by decide, by decide,
   numOfColumn_base26_strict_mono.2.2.2.2.2.2.2 "AB" "BA" (by decide) (by decide) (by decide),
   numOfColumn_base26_strict_mono.1 "AB" (by decide)⟩

theorem foldl_filter_append (p : RowNode → Bool) (g : RowNode → List Cell) :
    ∀ (rows : List RowNode) (acc : List Cell),
      (rows.filter p).foldl (fun cells row => cells ++ g row) acc =
        acc ++ rows.foldr (fun row r => (if p row then g row else []) ++ r) [] := by
  intro rows
  induction rows with
  | nil => intro acc; simp
  | cons row rows ih =>
    intro acc
    by_cases hp : p row = true
    · rw [List.foldr_cons, List.filter_cons_of_pos hp, List.foldl_cons, ih, if_pos hp,
          List.append_assoc]
    · rw [Bool.not_eq_true] at hp
      rw [List.foldr_cons, List.filter_cons_of_neg (by rw [hp]; simp), ih,
          if_neg (by rw [hp]; simp)]
      simp

/-- The record pushed per cell node, written as the spec describes it:
the type attribute defaults to the empty string, and so does a missing or
empty value list. -/
theorem cellRecord_eq (cell : CellNode) :
    cellRecord cell = ⟨(getPosition cell.r).row, (getPosition cell.r).col,
      cell.t.getD "",
      match cell.v with | some (x :: _) => x | _ => ""⟩ := by
  rcases cell with ⟨r, t, v⟩
  simp only [cellRecord]
  congr 1
  rcases t with _ | s
  · rfl
  · by_cases hs : s = ""
    · subst hs; rfl
    · simp [hs]

/-- Claim C6: `getCells` yields, in traversal order, one record per cell
node of every row carrying a non-empty cell list — row and col from
`getPosition` of the reference attribute, the type attribute or `""` if
absent, the first value node or `""` if absent — and rows with no cell list,
or an empty one, contribute nothing; the listed two-row example yields
exactly one record. -/
theorem getCells_characterization :
    (∀ rows : List RowNode, getCells rows =
      rows.foldr (fun row acc =>
        (match row.c with
         | some cs =>
           if cs.length = 0 then []
           else cs.map (fun cell =>
             (⟨(getPosition cell.r).row, (getPosition cell.r).col,
               cell.t.getD "",
               match cell.v with | some (x :: _) => x | _ => ""⟩ : Cell))
         | none => []) ++ acc) []) ∧
    getCells [⟨some [⟨"A1", none, some ["x"]⟩]⟩, ⟨some []⟩] = [⟨1, 1, "", "x"⟩] := by
  refine ⟨?_, by decide⟩
  intro rows
  have h0 : getCells rows = (rows.filter (fun row =>
      match row.c with
      | some cs => decide (0 < cs.length)
      | none => false)).foldl
      (fun cells row => cells ++ (fun row => (row.c.getD []).map cellRecord) row) [] := rfl
  rw [h0, foldl_filter_append, List.nil_append]
  clear h0
  induction rows with
  | nil => rfl
  | cons row rows ih =>
    rw [List.foldr_cons, List.foldr_cons, ih]
    congr 1
    rcases row with ⟨_ | cs⟩
    · rfl
    · rcases cs with _ | ⟨c0, cs⟩
      · rfl
      · simp only [List.length_cons]
        rw [if_pos (by simp), if_neg (by simp)]
        simp only [Option.getD_some]
        exact List.map_congr_left (fun cell _ => cellRecord_eq cell)

theorem parseTStep_acc (v : String) (x : TNode) :
    parseTStep v x = v ++ parseTStep "" x := by
  rcases x with s | u | _
  · simp only [parseTStep]
    rw [String.empty_append]
  · rcases u with _ | p
    · simp only [parseTStep]
      rw [String.append_empty]
    · rcases p with s | _
      · simp only [parseTStep]
        by_cases hs : s = ""
        · rw [if_pos hs, if_pos hs, String.append_empty]
        · rw [if_neg hs, if_neg hs, String.empty_append]
      · simp only [parseTStep]
        rw [String.append_empty]
  · simp only [parseTStep]
    rw [String.append_empty]

theorem foldl_parseTStep_acc (t : List TNode) (v : String) :
    t.foldl parseTStep v = v ++ parseT t := by
  induction t generalizing v with
  | nil => rw [List.foldl_nil, parseT, List.foldl_nil, String.append_empty]
  | cons x rest ih =>
    have h1 : (x :: rest).foldl parseTStep v = rest.foldl parseTStep (parseTStep v x) := rfl
    have h2 : parseT (x :: rest) = parseTStep "" x ++ parseT rest := ih (parseTStep "" x)
    rw [h1, ih (parseTStep v x), parseTStep_acc, String.append_assoc, h2]

theorem parseRStep_acc (v : String) (x : RNode) :
    parseRStep v x = v ++ parseRStep "" x := by
  rcases x with ⟨_ | tl⟩
  · simp only [parseRStep]
    rw [String.append_empty]
  · simp only [parseRStep]
    rw [String.empty_append]

theorem foldl_parseRStep_acc (r : List RNode) (v : String) :
    r.foldl parseRStep v = v ++ parseR r := by
  induction r generalizing v with
  | nil => rw [List.foldl_nil, parseR, List.foldl_nil, String.append_empty]
  | cons x rest ih =>
    have h1 : (x :: rest).foldl parseRStep v = rest.foldl parseRStep (parseRStep v x) := rfl
    have h2 : parseR (x :: rest) = parseRStep "" x ++ parseR rest := ih (parseRStep "" x)
    rw [h1, ih (parseRStep v x), parseRStep_acc, String.append_assoc, h2]

/-- Claim C7: `parseT` appends raw string nodes verbatim, appends the text
body of structured nodes with a string `_` payload verbatim, ignores every
other shape, preserves order and concatenates without trimming (it is a
monoid homomorphism from node lists under append); `parseR` appends the
`parseT` of each run carrying a `t` list and runs without one contribute
nothing; a plain run `"Hello "` followed by a preserved-whitespace run
`" World"` flattens to exactly `"Hello  World"`. -/
theorem parseT_parseR_flatten :
    (∀ xs ys : List TNode, parseT (xs ++ ys) = parseT xs ++ parseT ys) ∧
    (∀ s : String, parseT [.str s] = s) ∧
    (∀ s : String, parseT [.node (some (.str s))] = s) ∧
    parseT [.node (some .nonstring)] = "" ∧
    parseT [.node none] = "" ∧
    parseT [.other] = "" ∧
    (∀ rs ss : List RNode, parseR (rs ++ ss) = parseR rs ++ parseR ss) ∧
    (∀ tl : List TNode, parseR [⟨some tl⟩] = parseT tl) ∧
    parseR [⟨none⟩] = "" ∧
    parseR [⟨some [.str "Hello "]⟩, ⟨some [.node (some (.str " World"))]⟩] =
      "Hello  World" := by
  refine ⟨?_, ?_, ?_, by decide, by decide, by decide, ?_, ?_, by decide, by decide⟩
  · intro xs ys
    rw [parseT, List.foldl_append]
    exact foldl_parseTStep_acc ys (parseT xs)
  · intro s
    have h : parseT [TNode.str s] = "" ++ s := rfl
    rw [h, String.empty_append]
  · intro s
    by_cases hs : s = ""
    · subst hs
      decide
    · have h : parseT [TNode.node (some (TPayload.str s))] =
          if s = "" then "" else "" ++ s := rfl
      rw [h, if_neg hs, String.empty_append]
  · intro rs ss
    rw [parseR, List.foldl_append]
    exact foldl_parseRStep_acc ss (parseR rs)
  · intro tl
    have h : parseR [(⟨some tl⟩ : RNode)] = "" ++ parseT tl := rfl
    rw [h, String.empty_append]

/-- Claim C9: `createEmptyCells rows cols` is a matrix of exactly `rows`
rows, each of exactly `cols` entries, every entry the empty string; rows
are independent values, so functionally updating one row leaves every other
row unchanged; no error condition arises for natural-number inputs. -/
theorem createEmptyCells_spec :
    (∀ rows cols : Nat, (createEmptyCells rows cols).length = rows) ∧
    (∀ rows cols : Nat, ∀ r ∈ createEmptyCells rows cols,
      r.length = cols ∧ ∀ s ∈ r, s = "") ∧
    (∀ rows cols i j : Nat, ∀ newRow : List String, i ≠ j →
      ((createEmptyCells rows cols).set i newRow).getD j [] =
        (createEmptyCells rows cols).getD j []) ∧
    createEmptyCells 2 3 = [["", "", ""], ["", "", ""]] := by
  refine ⟨?_, ?_, ?_, by decide⟩
  · intro rows cols
    simp [createEmptyCells]
  · intro rows cols r hr
    obtain ⟨a, ha, hra⟩ := List.mem_map.mp hr
    subst hra
    refine ⟨by simp, ?_⟩
    intro s hs
    obtain ⟨b, hb, hsb⟩ := List.mem_map.mp hs
    exact hsb.symm
  · intro rows cols i j newRow hij
    rw [List.getD_eq_getElem?_getD, List.getD_eq_getElem?_getD,
        List.getElem?_set_ne hij]

/-- Claim C9, witness: updating row 0 of the 2×3 grid leaves row 1
unchanged. -/
theorem createEmptyCells_spec_witness :
    (0 : Nat) ≠ 1 ∧
    ((createEmptyCells 2 3).set 0 ["mutated"]).getD 1 [] =
      (createEmptyCells 2 3).getD 1 [] :=
  ⟨by decide, createEmptyCells_spec.2.2.1 2 3 0 1 ["mutated"] (by decide)⟩

end XlsxUtil
